import Mathlib

/-!
Verification of the superpixel aggregation and similarity-merging subsystem
(SLICHashTable accumulation pass and the SuperDuperPixel incremental-average
merge structure) of the Dynamic-SLIC-Superpixels research repository.

The embedding follows the C++ source:
* `SuperDuperPixel` is the merge unit of SuperDuperPixel.cpp / SuperDuperPixel.hpp:
  a list of member superpixel ids, a running average feature vector, and a total
  pixel count.  C++ `float` channel values are modelled as exact rationals
  (`ℚ`); the spec states the averaging invariants up to floating-point
  tolerance, which corresponds to exact equality in the idealised field.
  C++ `assert` preconditions are modelled by returning `Option`: `none` is an
  assertion failure.
* `SLICHashTable.Hash` is the accumulation pass of SLICHashTable.hpp (the
  draft that updates the table through the reference `HashKey &curr`): a
  row-major pass over the label map updating a `calloc`-zeroed array of
  `HashKey` records.  The unchecked C++ array access `superpixels[sp]` is
  modelled by `Option`: `none` means the C++ code would access out of bounds
  (undefined behaviour), and is distinct from any raised error.
-/

/-- One original superpixel record: the argument triple
`(superpixel, average_or_histogram, pixel_count)` passed to the
`SuperDuperPixel` constructor and to `add_superpixel`. -/
structure SPRecord where
  sp : Int
  vec : List ℚ
  count : ℕ
deriving DecidableEq

/-- The merge unit of SuperDuperPixel.hpp: member superpixel ids, running
average feature vector (one rational per channel), and total pixel count.
These three fields are the entire state of the C++ class; it has no image
pointer or raw pixel data. -/
structure SuperDuperPixel where
  superpixels : List Int
  average_or_histogram : List ℚ
  pixel_count : ℕ
deriving DecidableEq

namespace SuperDuperPixel

/-- The C++ constructor `SuperDuperPixel(superpixel, average_or_histogram,
pixel_count)`: pushes the one id and copies vector and count. -/
def make (r : SPRecord) : SuperDuperPixel :=
  { superpixels := [r.sp]
    average_or_histogram := r.vec
    pixel_count := r.count }

/-- The channel loop shared by `add_superpixel` and `operator+=`: channel by
channel, `(this_avg * this_count + other_avg * other_count) / new_count`
where `new_count = this_count + other_count`. -/
def mergeAvg (v1 v2 : List ℚ) (c1 c2 : ℕ) : List ℚ :=
  List.zipWith (fun a b => (a * (c1 : ℚ) + b * (c2 : ℚ)) / ((c1 : ℚ) + (c2 : ℚ))) v1 v2

/-- `SuperDuperPixel::distance_from`: asserts equal vector lengths, then loops
over the channels accumulating `dist += abs(diff)` (Manhattan distance, per
the comments in the source).  `none` models the assertion failure. -/
def distance_from (u : SuperDuperPixel) (other : List ℚ) : Option ℚ :=
  if u.average_or_histogram.length = other.length then
    some ((List.range u.average_or_histogram.length).foldl
      (fun dist i => dist + |u.average_or_histogram.getD i 0 - other.getD i 0|) 0)
  else none

/-- `SuperDuperPixel::add_superpixel`: asserts equal vector lengths, appends
the member id, recomputes the running weighted average channel by channel,
and updates the total pixel count. -/
def add_superpixel (u : SuperDuperPixel) (sp : Int) (vec : List ℚ) (count : ℕ) :
    Option SuperDuperPixel :=
  if u.average_or_histogram.length = vec.length then
    some { superpixels := u.superpixels ++ [sp]
           average_or_histogram := mergeAvg u.average_or_histogram vec u.pixel_count count
           pixel_count := u.pixel_count + count }
  else none

/-- `SuperDuperPixel::operator+=`: asserts equal vector lengths, appends the
other unit's whole member list, recomputes the running weighted average, and
updates the total pixel count. -/
def plusEq (u other : SuperDuperPixel) : Option SuperDuperPixel :=
  if u.average_or_histogram.length = other.average_or_histogram.length then
    some { superpixels := u.superpixels ++ other.superpixels
           average_or_histogram :=
             mergeAvg u.average_or_histogram other.average_or_histogram
               u.pixel_count other.pixel_count
           pixel_count := u.pixel_count + other.pixel_count }
  else none

end SuperDuperPixel

/-- A merge computation: leaves are original superpixel records (absorbed via
the constructor / `add_superpixel`), inner nodes are `operator+=` merges.
Every sequence of `add_superpixel` and `operator+=` calls building a unit is
one such tree. -/
inductive MergeTree where
  | leaf : SPRecord → MergeTree
  | node : MergeTree → MergeTree → MergeTree

namespace MergeTree

/-- The original member records of a merge computation, in absorption order. -/
def leaves : MergeTree → List SPRecord
  | leaf r => [r]
  | node a b => a.leaves ++ b.leaves

/-- Run the merge computation through the embedded C++ operations. -/
def eval : MergeTree → Option SuperDuperPixel
  | leaf r => some (SuperDuperPixel.make r)
  | node a b =>
    match a.eval, b.eval with
    | some ua, some ub => ua.plusEq ub
    | _, _ => none

end MergeTree

/-- Total pixel count of a collection of original records. -/
def totalCount (rs : List SPRecord) : ℕ := (rs.map (·.count)).sum

/-- Pixel-count-weighted sum of channel `i` over a collection of records. -/
def weightedSum (rs : List SPRecord) (i : ℕ) : ℚ :=
  (rs.map (fun r => (r.count : ℚ) * r.vec.getD i 0)).sum

/-- The pixel-count-weighted mean feature vector of a collection of records
with `n` channels. -/
def weightedMean (rs : List SPRecord) (n : ℕ) : List ℚ :=
  (List.range n).map (fun i => weightedSum rs i / (totalCount rs : ℚ))

section Helpers

lemma foldl_add_eq_sum (f : ℕ → ℚ) :
    ∀ (l : List ℕ) (init : ℚ),
      l.foldl (fun d i => d + f i) init = init + (l.map f).sum := by
  intro l
  induction l with
  | nil => simp
  | cons a l ih =>
    intro init
    simp [List.foldl_cons, ih, add_assoc]

lemma list_range_map_sum (f : ℕ → ℚ) (n : ℕ) :
    ((List.range n).map f).sum = Finset.sum (Finset.range n) f := by
  induction n with
  | zero => simp
  | succ n ih =>
    rw [List.range_succ, List.map_append, List.sum_append, Finset.sum_range_succ, ih]
    simp

lemma getD_zipWith (f : ℚ → ℚ → ℚ) (v1 v2 : List ℚ) (i : ℕ)
    (h1 : i < v1.length) (h2 : i < v2.length) :
    (List.zipWith f v1 v2).getD i 0 = f (v1.getD i 0) (v2.getD i 0) := by
  have hlen : i < (List.zipWith f v1 v2).length := by
    simp [List.length_zipWith]; omega
  rw [List.getD_eq_getElem _ _ hlen, List.getD_eq_getElem _ _ h1,
    List.getD_eq_getElem _ _ h2, List.getElem_zipWith]

end Helpers

section Helpers2

lemma list_eq_of_getD (v w : List ℚ) (n : ℕ) (hv : v.length = n) (hw : w.length = n)
    (hpt : ∀ i, i < n → v.getD i 0 = w.getD i 0) : v = w := by
  apply List.ext_getElem (by omega)
  intro i h1 h2
  have h := hpt i (by omega)
  rwa [List.getD_eq_getElem _ _ h1, List.getD_eq_getElem _ _ h2] at h

lemma leaves_ne_nil (t : MergeTree) : t.leaves ≠ [] := by
  induction t with
  | leaf r => simp [MergeTree.leaves]
  | node a b iha ihb => simp [MergeTree.leaves, iha]

lemma totalCount_pos (rs : List SPRecord) (hne : rs ≠ [])
    (hpos : ∀ r ∈ rs, 0 < r.count) : 0 < totalCount rs := by
  cases rs with
  | nil => exact absurd rfl hne
  | cons r rest =>
    have hr : 0 < r.count := hpos r (by simp)
    simp only [totalCount, List.map_cons, List.sum_cons]
    omega

lemma totalCount_append (rs1 rs2 : List SPRecord) :
    totalCount (rs1 ++ rs2) = totalCount rs1 + totalCount rs2 := by
  simp [totalCount]

lemma weightedSum_append (rs1 rs2 : List SPRecord) (i : ℕ) :
    weightedSum (rs1 ++ rs2) i = weightedSum rs1 i + weightedSum rs2 i := by
  simp [weightedSum]

lemma mergeAvg_length (v1 v2 : List ℚ) (c1 c2 : ℕ) :
    (SuperDuperPixel.mergeAvg v1 v2 c1 c2).length = min v1.length v2.length := by
  simp [SuperDuperPixel.mergeAvg]

lemma eval_base (n : ℕ) (t : MergeTree) (hlen : ∀ r ∈ t.leaves, r.vec.length = n) :
    ∃ u, t.eval = some u ∧
      u.superpixels = t.leaves.map (·.sp) ∧
      u.pixel_count = totalCount t.leaves ∧
      u.average_or_histogram.length = n := by
  induction t with
  | leaf r =>
    refine ⟨SuperDuperPixel.make r, rfl, ?_, ?_, ?_⟩
    · simp [SuperDuperPixel.make, MergeTree.leaves]
    · simp [SuperDuperPixel.make, MergeTree.leaves, totalCount]
    · exact hlen r (by simp [MergeTree.leaves])
  | node a b iha ihb =>
    obtain ⟨ua, ha, hma, hca, hla⟩ :=
      iha (fun r hr => hlen r (by simp [MergeTree.leaves, hr]))
    obtain ⟨ub, hb, hmb, hcb, hlb⟩ :=
      ihb (fun r hr => hlen r (by simp [MergeTree.leaves, hr]))
    refine ⟨{ superpixels := ua.superpixels ++ ub.superpixels
              average_or_histogram :=
                SuperDuperPixel.mergeAvg ua.average_or_histogram ub.average_or_histogram
                  ua.pixel_count ub.pixel_count
              pixel_count := ua.pixel_count + ub.pixel_count }, ?_, ?_, ?_, ?_⟩
    · simp only [MergeTree.eval, ha, hb, SuperDuperPixel.plusEq]
      rw [if_pos (by rw [hla, hlb])]
    · simp [MergeTree.leaves, hma, hmb]
    · simp [MergeTree.leaves, totalCount_append, hca, hcb]
    · simp [mergeAvg_length, hla, hlb]

lemma eval_avg (n : ℕ) (t : MergeTree) (hlen : ∀ r ∈ t.leaves, r.vec.length = n)
    (hpos : ∀ r ∈ t.leaves, 0 < r.count) :
    ∃ u, t.eval = some u ∧
      u.pixel_count = totalCount t.leaves ∧
      u.average_or_histogram.length = n ∧
      ∀ i, i < n →
        u.average_or_histogram.getD i 0 =
          weightedSum t.leaves i / (totalCount t.leaves : ℚ) := by
  induction t with
  | leaf r =>
    have hc : (0 : ℚ) < (r.count : ℚ) := by
      exact_mod_cast hpos r (by simp [MergeTree.leaves])
    refine ⟨SuperDuperPixel.make r, rfl, ?_, hlen r (by simp [MergeTree.leaves]), ?_⟩
    · simp [SuperDuperPixel.make, MergeTree.leaves, totalCount]
    · intro i hi
      simp only [SuperDuperPixel.make, MergeTree.leaves, weightedSum, totalCount,
        List.map_cons, List.map_nil, List.sum_cons, List.sum_nil, add_zero]
      rw [mul_div_cancel_left₀ _ (ne_of_gt hc)]
  | node a b iha ihb =>
    have hlena : ∀ r ∈ a.leaves, r.vec.length = n :=
      fun r hr => hlen r (by simp [MergeTree.leaves, hr])
    have hlenb : ∀ r ∈ b.leaves, r.vec.length = n :=
      fun r hr => hlen r (by simp [MergeTree.leaves, hr])
    have hposa : ∀ r ∈ a.leaves, 0 < r.count :=
      fun r hr => hpos r (by simp [MergeTree.leaves, hr])
    have hposb : ∀ r ∈ b.leaves, 0 < r.count :=
      fun r hr => hpos r (by simp [MergeTree.leaves, hr])
    obtain ⟨ua, ha, hca, hla, hva⟩ := iha hlena hposa
    obtain ⟨ub, hb, hcb, hlb, hvb⟩ := ihb hlenb hposb
    have hCa : (0 : ℚ) < (totalCount a.leaves : ℚ) := by
      exact_mod_cast totalCount_pos a.leaves (leaves_ne_nil a) hposa
    have hCb : (0 : ℚ) < (totalCount b.leaves : ℚ) := by
      exact_mod_cast totalCount_pos b.leaves (leaves_ne_nil b) hposb
    refine ⟨{ superpixels := ua.superpixels ++ ub.superpixels
              average_or_histogram :=
                SuperDuperPixel.mergeAvg ua.average_or_histogram ub.average_or_histogram
                  ua.pixel_count ub.pixel_count
              pixel_count := ua.pixel_count + ub.pixel_count }, ?_, ?_, ?_, ?_⟩
    · simp only [MergeTree.eval, ha, hb, SuperDuperPixel.plusEq]
      rw [if_pos (by rw [hla, hlb])]
    · simp [hca, hcb, MergeTree.leaves, totalCount_append]
    · simp [mergeAvg_length, hla, hlb]
    · intro i hi
      simp only [SuperDuperPixel.mergeAvg]
      rw [getD_zipWith _ _ _ _ (by omega) (by omega)]
      rw [hva i hi, hvb i hi, hca, hcb]
      have hleaves : (MergeTree.node a b).leaves = a.leaves ++ b.leaves := rfl
      rw [hleaves, weightedSum_append, totalCount_append]
      rw [div_mul_cancel₀ _ (ne_of_gt hCa), div_mul_cancel₀ _ (ne_of_gt hCb)]
      push_cast
      ring

lemma weightedMean_length (rs : List SPRecord) (n : ℕ) :
    (weightedMean rs n).length = n := by
  simp [weightedMean]

lemma weightedMean_getD (rs : List SPRecord) (n i : ℕ) (h : i < n) :
    (weightedMean rs n).getD i 0 = weightedSum rs i / (totalCount rs : ℚ) := by
  have hl : i < (weightedMean rs n).length := by rw [weightedMean_length]; omega
  rw [List.getD_eq_getElem _ _ hl]
  simp [weightedMean]

end Helpers2

/-- Claim C1: for every merge unit built by any sequence of `add_superpixel`
and `operator+=` calls from original superpixel records with positive pixel
counts (and a common channel count), the unit evaluates successfully, its
aggregate feature vector equals the pixel-count-weighted mean of all original
member records, and two merge computations over the same records (in any
order) produce the same aggregate vector. -/
theorem C1_aggregate_weighted_mean_order_independent
    (t₁ t₂ : MergeTree) (n : ℕ)
    (hperm : t₁.leaves.Perm t₂.leaves)
    (hlen : ∀ r ∈ t₁.leaves, r.vec.length = n)
    (hpos : ∀ r ∈ t₁.leaves, 0 < r.count) :
    ∃ u₁ u₂, t₁.eval = some u₁ ∧ t₂.eval = some u₂ ∧
      u₁.average_or_histogram = weightedMean t₁.leaves n ∧
      u₂.average_or_histogram = u₁.average_or_histogram := by
  have hlen₂ : ∀ r ∈ t₂.leaves, r.vec.length = n :=
    fun r hr => hlen r (hperm.mem_iff.mpr hr)
  have hpos₂ : ∀ r ∈ t₂.leaves, 0 < r.count :=
    fun r hr => hpos r (hperm.mem_iff.mpr hr)
  obtain ⟨u₁, h₁, hc₁, hl₁, hv₁⟩ := eval_avg n t₁ hlen hpos
  obtain ⟨u₂, h₂, hc₂, hl₂, hv₂⟩ := eval_avg n t₂ hlen₂ hpos₂
  have hsum : ∀ i, weightedSum t₂.leaves i = weightedSum t₁.leaves i := by
    intro i
    simp only [weightedSum]
    exact ((hperm.map (fun r => (r.count : ℚ) * r.vec.getD i 0)).sum_eq).symm
  have htot : totalCount t₂.leaves = totalCount t₁.leaves := by
    simp only [totalCount]
    exact ((hperm.map (·.count)).sum_eq).symm
  have hmean : u₁.average_or_histogram = weightedMean t₁.leaves n := by
    apply list_eq_of_getD _ _ n hl₁ (weightedMean_length t₁.leaves n)
    intro i hi
    rw [hv₁ i hi, weightedMean_getD _ _ _ hi]
  refine ⟨u₁, u₂, h₁, h₂, hmean, ?_⟩
  apply list_eq_of_getD _ _ n hl₂ hl₁
  intro i hi
  rw [hv₁ i hi, hv₂ i hi, hsum, htot]

/-- Witness for C1 at a concrete pair of mirrored merge computations. -/
theorem C1_witness :
    ∃ u₁ u₂,
      (MergeTree.node (MergeTree.leaf ⟨0, [0], 1⟩) (MergeTree.leaf ⟨1, [2], 3⟩)).eval =
        some u₁ ∧
      (MergeTree.node (MergeTree.leaf ⟨1, [2], 3⟩) (MergeTree.leaf ⟨0, [0], 1⟩)).eval =
        some u₂ ∧
      u₁.average_or_histogram =
        weightedMean
          (MergeTree.node (MergeTree.leaf ⟨0, [0], 1⟩) (MergeTree.leaf ⟨1, [2], 3⟩)).leaves
          1 ∧
      u₂.average_or_histogram = u₁.average_or_histogram :=
  C1_aggregate_weighted_mean_order_independent
    (MergeTree.node (MergeTree.leaf ⟨0, [0], 1⟩) (MergeTree.leaf ⟨1, [2], 3⟩))
    (MergeTree.node (MergeTree.leaf ⟨1, [2], 3⟩) (MergeTree.leaf ⟨0, [0], 1⟩))
    1 (by decide) (by decide) (by decide)

/-- Claim C9: after construction and any sequence of `add_superpixel` and
`operator+=` calls (over records of a common channel count), the total
`pixel_count` equals the sum of the pixel counts supplied for all members,
and the member-id list is exactly the ids supplied, so its length is the
number of members absorbed. -/
theorem C9_pixel_count_and_members
    (t : MergeTree) (n : ℕ) (hlen : ∀ r ∈ t.leaves, r.vec.length = n) :
    ∃ u, t.eval = some u ∧
      u.superpixels = t.leaves.map (·.sp) ∧
      u.superpixels.length = t.leaves.length ∧
      u.pixel_count = totalCount t.leaves := by
  obtain ⟨u, h, hm, hc, _⟩ := eval_base n t hlen
  exact ⟨u, h, hm, by rw [hm, List.length_map], hc⟩

/-- Witness for C9 at a concrete three-member merge computation. -/
theorem C9_witness :
    ∃ u,
      (MergeTree.node
        (MergeTree.node (MergeTree.leaf ⟨4, [1, 1], 2⟩) (MergeTree.leaf ⟨7, [3, 5], 0⟩))
        (MergeTree.leaf ⟨5, [2, 2], 6⟩)).eval = some u ∧
      u.superpixels =
        (MergeTree.node
          (MergeTree.node (MergeTree.leaf ⟨4, [1, 1], 2⟩) (MergeTree.leaf ⟨7, [3, 5], 0⟩))
          (MergeTree.leaf ⟨5, [2, 2], 6⟩)).leaves.map (·.sp) ∧
      u.superpixels.length =
        (MergeTree.node
          (MergeTree.node (MergeTree.leaf ⟨4, [1, 1], 2⟩) (MergeTree.leaf ⟨7, [3, 5], 0⟩))
          (MergeTree.leaf ⟨5, [2, 2], 6⟩)).leaves.length ∧
      u.pixel_count =
        totalCount
          (MergeTree.node
            (MergeTree.node (MergeTree.leaf ⟨4, [1, 1], 2⟩) (MergeTree.leaf ⟨7, [3, 5], 0⟩))
            (MergeTree.leaf ⟨5, [2, 2], 6⟩)).leaves :=
  C9_pixel_count_and_members
    (MergeTree.node
      (MergeTree.node (MergeTree.leaf ⟨4, [1, 1], 2⟩) (MergeTree.leaf ⟨7, [3, 5], 0⟩))
      (MergeTree.leaf ⟨5, [2, 2], 6⟩))
    2 (by decide)

/-- Claim C5: for feature vectors of equal length `n`, `distance_from` returns
the Manhattan (L1) distance, the sum over all channels of the absolute
difference between the unit's current feature vector and the given vector;
for vectors of unequal length the call fails (assertion) instead of
returning a value. -/
theorem C5_distance_from_manhattan (ids : List Int) (c : ℕ) (u v : List ℚ) (n : ℕ) :
    (u.length = n → v.length = n →
      SuperDuperPixel.distance_from ⟨ids, u, c⟩ v =
        some (Finset.sum (Finset.range n) (fun i => |u.getD i 0 - v.getD i 0|))) ∧
    (u.length ≠ v.length →
      SuperDuperPixel.distance_from ⟨ids, u, c⟩ v = none) := by
  constructor
  · intro hu hv
    simp only [SuperDuperPixel.distance_from]
    rw [if_pos (by rw [hu, hv])]
    rw [foldl_add_eq_sum, zero_add, hu, list_range_map_sum]
  · intro hne
    simp only [SuperDuperPixel.distance_from]
    rw [if_neg hne]

/-- Witness for C5: a concrete equal-length pair gives the L1 distance, a
concrete unequal-length pair fails. -/
theorem C5_witness :
    SuperDuperPixel.distance_from ⟨[], [1, 3], 4⟩ [2, 0] =
      some (Finset.sum (Finset.range 2)
        (fun i => |[(1 : ℚ), 3].getD i 0 - [(2 : ℚ), 0].getD i 0|)) ∧
    SuperDuperPixel.distance_from ⟨[], [1, 3], 4⟩ [2] = none :=
  ⟨(C5_distance_from_manhattan [] 4 [1, 3] [2, 0] 2).1 rfl rfl,
   (C5_distance_from_manhattan [] 4 [1, 3] [2] 2).2 (by decide)⟩

/-- Claim C8: `distance_from` is symmetric: the distance from a unit with
aggregate vector `a` to `b` equals the distance from a unit with aggregate
vector `b` to `a`, whenever the two vectors have equal length (the member
lists and pixel counts of the two units are irrelevant). -/
theorem C8_distance_from_symmetric (ids₁ ids₂ : List Int) (c₁ c₂ : ℕ)
    (a b : List ℚ) (h : a.length = b.length) :
    SuperDuperPixel.distance_from ⟨ids₁, a, c₁⟩ b =
      SuperDuperPixel.distance_from ⟨ids₂, b, c₂⟩ a := by
  simp only [SuperDuperPixel.distance_from]
  rw [if_pos h, if_pos h.symm]
  rw [foldl_add_eq_sum, foldl_add_eq_sum, zero_add, zero_add, h]
  have hmap :
      List.map (fun i => |a.getD i 0 - b.getD i 0|) (List.range b.length) =
        List.map (fun i => |b.getD i 0 - a.getD i 0|) (List.range b.length) :=
    List.map_congr_left (fun i _ => abs_sub_comm _ _)
  rw [hmap]

/-- Witness for C8 at a concrete pair of vectors. -/
theorem C8_witness :
    SuperDuperPixel.distance_from ⟨[0], [1, 2], 5⟩ [3, 7] =
      SuperDuperPixel.distance_from ⟨[1], [3, 7], 9⟩ [1, 2] :=
  C8_distance_from_symmetric [0] [1] 5 9 [1, 2] [3, 7] rfl

/-- Claim C7: a merge unit holds only derived numeric data: it is fully
determined by its member-id list, aggregate feature vector and total pixel
count, with no reference to the original image or raw pixel data (the
embedded `SuperDuperPixel` structure consists of exactly the three fields of
the C++ class). -/
theorem C7_unit_determined_by_derived_data (u v : SuperDuperPixel)
    (h1 : u.superpixels = v.superpixels)
    (h2 : u.average_or_histogram = v.average_or_histogram)
    (h3 : u.pixel_count = v.pixel_count) : u = v := by
  cases u
  cases v
  simp_all

/-- Witness for C7 at two concrete units with equal derived data. -/
theorem C7_witness :
    (⟨[2], [4, 4], 3⟩ : SuperDuperPixel) = ⟨[2], [4, 4], 3⟩ :=
  C7_unit_determined_by_derived_data ⟨[2], [4, 4], 3⟩ ⟨[2], [4, 4], 3⟩ rfl rfl rfl

/-- Claim C10: adding a member with pixel count `0` to a unit with positive
total pixel count leaves the aggregate feature vector and the total pixel
count unchanged, while the member id is still appended to the member list. -/
theorem C10_zero_weight_member_identity (u : SuperDuperPixel) (sp : Int) (vec : List ℚ)
    (hpos : 0 < u.pixel_count) (hlen : u.average_or_histogram.length = vec.length) :
    u.add_superpixel sp vec 0 =
      some { superpixels := u.superpixels ++ [sp]
             average_or_histogram := u.average_or_histogram
             pixel_count := u.pixel_count } := by
  have hc : (u.pixel_count : ℚ) ≠ 0 := Nat.cast_ne_zero.mpr (by omega)
  simp only [SuperDuperPixel.add_superpixel]
  rw [if_pos hlen]
  have havg : SuperDuperPixel.mergeAvg u.average_or_histogram vec u.pixel_count 0 =
      u.average_or_histogram := by
    apply list_eq_of_getD _ _ u.average_or_histogram.length
    · rw [mergeAvg_length, hlen, min_self]
    · rfl
    · intro i hi
      simp only [SuperDuperPixel.mergeAvg]
      rw [getD_zipWith _ _ _ _ hi (by omega)]
      push_cast
      rw [mul_zero, add_zero, add_zero, mul_div_cancel_right₀ _ hc]
  rw [havg]
  simp

/-- Witness for C10 at a concrete unit and zero-count member. -/
theorem C10_witness :
    SuperDuperPixel.add_superpixel ⟨[0], [5, 6], 2⟩ 3 [9, 9] 0 =
      some { superpixels := [0] ++ [3]
             average_or_histogram := [5, 6]
             pixel_count := 2 } :=
  C10_zero_weight_member_identity ⟨[0], [5, 6], 2⟩ 3 [9, 9] (by decide) (by decide)

/-- The per-superpixel record of SLICHashTable.hpp: running color channel
totals, inclusive bounding ranges in x (columns) and y (rows), and the pixel
count.  The C++ struct also stores `const cv::Mat *original_image`, a pointer
to the single input image argument; pointer identity is not part of the
numeric state and is not modelled. -/
structure HashKey where
  l_tot : ℤ
  a_tot : ℤ
  b_tot : ℤ
  x_range : ℕ × ℕ
  y_range : ℕ × ℕ
  pixel_count : ℕ
deriving DecidableEq

/-- The `calloc`-zeroed initial record. -/
def HashKey.zero : HashKey :=
  { l_tot := 0, a_tot := 0, b_tot := 0, x_range := (0, 0), y_range := (0, 0)
    pixel_count := 0 }

namespace SLICHashTable

/-- The body of the `Hash` pixel loop acting on one `HashKey`: add the three
channel values of the lab pixel to the running totals; on first sight
(`pixel_count == 0`) initialize both ranges to this pixel, otherwise widen
each range bound that the pixel exceeds; finally increment the pixel count. -/
def updateKey (c0 : HashKey) (px : ℕ × ℕ × ℕ) (row col : ℕ) : HashKey :=
  let c1 : HashKey :=
    { c0 with
      l_tot := c0.l_tot + (px.1 : ℤ)
      a_tot := c0.a_tot + (px.2.1 : ℤ)
      b_tot := c0.b_tot + (px.2.2 : ℤ) }
  let c2 : HashKey :=
    if c1.pixel_count = 0 then
      { c1 with x_range := (col, col), y_range := (row, row) }
    else
      { c1 with
        x_range :=
          (if c1.x_range.1 > col then col else c1.x_range.1,
           if c1.x_range.2 < col then col else c1.x_range.2)
        y_range :=
          (if c1.y_range.1 > row then row else c1.y_range.1,
           if c1.y_range.2 < row then row else c1.y_range.2) }
  { c2 with pixel_count := c2.pixel_count + 1 }

/-- One iteration of the `Hash` pixel loop: read the label `sp`, update the
record at index `sp` of the table.  The C++ access `superpixels[sp]` is
unchecked; `none` models the out-of-bounds access (undefined behaviour) that
occurs when `sp` is not below the table size. -/
def hashPixel (input_image : ℕ → ℕ → ℕ × ℕ × ℕ) (labels : ℕ → ℕ → ℕ)
    (table : List HashKey) (row col : ℕ) : Option (List HashKey) :=
  let sp := labels row col
  if h : sp < table.length then
    some (table.set sp (updateKey (table.get ⟨sp, h⟩) (input_image row col) row col))
  else none

/-- `SLICHashTable::Hash`: allocate a `calloc`-zeroed array of
`superpixel_count` records, then iterate every pixel in row-major order
applying the loop body.  (The trailing `if (curr.pixel_count == pixel_count[sp])`
block of the source has an empty body and contributes nothing.) -/
def Hash (input_image : ℕ → ℕ → ℕ × ℕ × ℕ) (labels : ℕ → ℕ → ℕ)
    (rows cols superpixel_count : ℕ) : Option (List HashKey) :=
  (List.range rows).foldl
    (fun acc row =>
      (List.range cols).foldl
        (fun acc2 col => acc2.bind (fun t => hashPixel input_image labels t row col))
        acc)
    (some (List.replicate superpixel_count HashKey.zero))

/-- The row-major pixel traversal order of the `Hash` double loop. -/
def pixelSeq (rows cols : ℕ) : List (ℕ × ℕ) :=
  (List.range rows).flatMap (fun row => (List.range cols).map (fun col => (row, col)))

/-- The `Hash` loop as a single fold over a pixel list. -/
def accumPixels (input_image : ℕ → ℕ → ℕ × ℕ × ℕ) (labels : ℕ → ℕ → ℕ)
    (ps : List (ℕ × ℕ)) (t0 : List HashKey) : Option (List HashKey) :=
  ps.foldl (fun acc p => acc.bind (fun t => hashPixel input_image labels t p.1 p.2))
    (some t0)

end SLICHashTable

namespace SLICHashTable

lemma foldl_flatMap {α β γ : Type} (l : List α) (g : α → List β) (f : γ → β → γ)
    (init : γ) :
    (l.flatMap g).foldl f init = l.foldl (fun acc a => (g a).foldl f acc) init := by
  induction l generalizing init with
  | nil => rfl
  | cons a l ih => simp [ih, List.foldl_append]

lemma Hash_eq_accumPixels (input_image : ℕ → ℕ → ℕ × ℕ × ℕ) (labels : ℕ → ℕ → ℕ)
    (rows cols k : ℕ) :
    Hash input_image labels rows cols k =
      accumPixels input_image labels (pixelSeq rows cols)
        (List.replicate k HashKey.zero) := by
  unfold Hash accumPixels pixelSeq
  rw [foldl_flatMap]
  congr 1
  funext acc row
  rw [List.foldl_map]

lemma pixelSeq_mem (rows cols : ℕ) (p : ℕ × ℕ) :
    p ∈ pixelSeq rows cols ↔ p.1 < rows ∧ p.2 < cols := by
  cases p with
  | mk r c =>
    simp [pixelSeq, List.mem_flatMap, List.mem_map, List.mem_range]

lemma pixelSeq_length (rows cols : ℕ) :
    (pixelSeq rows cols).length = rows * cols := by
  unfold pixelSeq
  induction rows with
  | zero => simp
  | succ n ih =>
    rw [List.range_succ, List.flatMap_append, List.length_append, ih]
    simp [Nat.succ_mul]


lemma updateKey_pixel_count (c0 : HashKey) (px : ℕ × ℕ × ℕ) (row col : ℕ) :
    (updateKey c0 px row col).pixel_count = c0.pixel_count + 1 := by
  simp only [updateKey]
  split <;> rfl

lemma updateKey_ranges_zero (c0 : HashKey) (px : ℕ × ℕ × ℕ) (row col : ℕ)
    (h : c0.pixel_count = 0) :
    (updateKey c0 px row col).x_range = (col, col) ∧
      (updateKey c0 px row col).y_range = (row, row) := by
  simp only [updateKey]
  rw [if_pos h]
  exact ⟨rfl, rfl⟩

lemma updateKey_ranges_pos (c0 : HashKey) (px : ℕ × ℕ × ℕ) (row col : ℕ)
    (h : c0.pixel_count ≠ 0) :
    (updateKey c0 px row col).x_range =
        (if c0.x_range.1 > col then col else c0.x_range.1,
         if c0.x_range.2 < col then col else c0.x_range.2) ∧
      (updateKey c0 px row col).y_range =
        (if c0.y_range.1 > row then row else c0.y_range.1,
         if c0.y_range.2 < row then row else c0.y_range.2) := by
  simp only [updateKey]
  rw [if_neg h]
  exact ⟨rfl, rfl⟩

lemma getD_set_self (t : List HashKey) (i : ℕ) (v : HashKey) (h : i < t.length) :
    (t.set i v).getD i HashKey.zero = v := by
  rw [List.getD_eq_getElem _ _ (by simpa using h)]
  simp [List.getElem_set]

lemma getD_set_ne (t : List HashKey) (i j : ℕ) (v : HashKey) (hne : i ≠ j) :
    (t.set i v).getD j HashKey.zero = t.getD j HashKey.zero := by
  by_cases hj : j < t.length
  · rw [List.getD_eq_getElem _ _ (by simpa using hj), List.getD_eq_getElem _ _ hj]
    simp [List.getElem_set, hne]
  · rw [List.getD_eq_default _ _ (by simpa using Nat.le_of_not_lt hj),
      List.getD_eq_default _ _ (Nat.le_of_not_lt hj)]

lemma map_sum_set (t : List HashKey) (i : ℕ) (v : HashKey) (hi : i < t.length) :
    ((t.set i v).map HashKey.pixel_count).sum + (t.getD i HashKey.zero).pixel_count =
      (t.map HashKey.pixel_count).sum + v.pixel_count := by
  induction t generalizing i with
  | nil => simp at hi
  | cons a t ih =>
    cases i with
    | zero =>
      simp only [List.set, List.map_cons, List.sum_cons, List.getD_cons_zero]
      omega
    | succ n =>
      have hn : n < t.length := by simpa using hi
      have := ih n hn
      simp only [List.set, List.map_cons, List.sum_cons, List.getD_cons_succ]
      omega

/-- A pixel `(row, col)` lies inside the bounding ranges of a record. -/
def inBox (key : HashKey) (p : ℕ × ℕ) : Prop :=
  key.x_range.1 ≤ p.2 ∧ p.2 ≤ key.x_range.2 ∧
    key.y_range.1 ≤ p.1 ∧ p.1 ≤ key.y_range.2

/-- Invariant of the accumulation pass after processing the pixels of `seen`
(in any order): the table keeps its size; the pixel counts total the number
of processed pixels; and per id, the count equals the number of processed
pixels with that label, the ranges contain every such pixel, and each of the
four range bounds is attained by such a pixel when any exists. -/
def TableInv (labels : ℕ → ℕ → ℕ) (k : ℕ) (seen : List (ℕ × ℕ))
    (t : List HashKey) : Prop :=
  t.length = k ∧
  (t.map HashKey.pixel_count).sum = seen.length ∧
  ∀ sp, sp < k →
    ((t.getD sp HashKey.zero).pixel_count =
        (seen.filter (fun p => labels p.1 p.2 = sp)).length ∧
     (∀ p ∈ seen, labels p.1 p.2 = sp → inBox (t.getD sp HashKey.zero) p) ∧
     (seen.filter (fun p => labels p.1 p.2 = sp) ≠ [] →
        (∃ p ∈ seen, labels p.1 p.2 = sp ∧ p.2 = (t.getD sp HashKey.zero).x_range.1) ∧
        (∃ p ∈ seen, labels p.1 p.2 = sp ∧ p.2 = (t.getD sp HashKey.zero).x_range.2) ∧
        (∃ p ∈ seen, labels p.1 p.2 = sp ∧ p.1 = (t.getD sp HashKey.zero).y_range.1) ∧
        (∃ p ∈ seen, labels p.1 p.2 = sp ∧ p.1 = (t.getD sp HashKey.zero).y_range.2)))

lemma tableInv_init (labels : ℕ → ℕ → ℕ) (k : ℕ) :
    TableInv labels k [] (List.replicate k HashKey.zero) := by
  refine ⟨by simp, by simp [List.map_replicate, HashKey.zero], ?_⟩
  intro sp hsp
  have hz : (List.replicate k HashKey.zero).getD sp HashKey.zero = HashKey.zero := by
    rw [List.getD_eq_getElem _ _ (by simpa using hsp)]
    simp
  refine ⟨?_, ?_, ?_⟩
  · simp [hz, HashKey.zero]
  · simp
  · simp

end SLICHashTable

namespace SLICHashTable

lemma hashPixel_inv (input_image : ℕ → ℕ → ℕ × ℕ × ℕ) (labels : ℕ → ℕ → ℕ) (k : ℕ)
    (seen : List (ℕ × ℕ)) (t : List HashKey) (q : ℕ × ℕ)
    (hinv : TableInv labels k seen t) (hq : labels q.1 q.2 < k) :
    ∃ t2, hashPixel input_image labels t q.1 q.2 = some t2 ∧
      TableInv labels k (seen ++ [q]) t2 := by
  obtain ⟨hlen, hsum, hsp⟩ := hinv
  have hlt : labels q.1 q.2 < t.length := by omega
  have hget : t.get ⟨labels q.1 q.2, hlt⟩ = t.getD (labels q.1 q.2) HashKey.zero := by
    rw [List.get_eq_getElem, List.getD_eq_getElem _ _ hlt]
  refine ⟨t.set (labels q.1 q.2)
      (updateKey (t.getD (labels q.1 q.2) HashKey.zero) (input_image q.1 q.2) q.1 q.2),
    ?_, ?_, ?_, ?_⟩
  · simp only [hashPixel]
    rw [dif_pos hlt, hget]
  · simp [List.length_set, hlen]
  · have hms := map_sum_set t (labels q.1 q.2)
      (updateKey (t.getD (labels q.1 q.2) HashKey.zero) (input_image q.1 q.2) q.1 q.2) hlt
    rw [updateKey_pixel_count] at hms
    simp only [List.length_append, List.length_cons, List.length_nil]
    omega
  · intro sp hsp2
    obtain ⟨hcount, hcontain, hattain⟩ := hsp sp hsp2
    by_cases heq : labels q.1 q.2 = sp
    · subst heq
      rw [getD_set_self _ _ _ hlt]
      have hfa : (seen ++ [q]).filter (fun p => labels p.1 p.2 = labels q.1 q.2) =
          seen.filter (fun p => labels p.1 p.2 = labels q.1 q.2) ++ [q] := by
        rw [List.filter_append]
        simp
      by_cases hz : (t.getD (labels q.1 q.2) HashKey.zero).pixel_count = 0
      · have hfilt : seen.filter (fun p => labels p.1 p.2 = labels q.1 q.2) = [] := by
          rw [hcount] at hz
          exact List.length_eq_zero.mp hz
        have hnoseen : ∀ p ∈ seen, labels p.1 p.2 ≠ labels q.1 q.2 := by
          intro p hp hlab
          have hmem : p ∈ seen.filter (fun p => labels p.1 p.2 = labels q.1 q.2) := by
            simp [List.mem_filter, hp, hlab]
          rw [hfilt] at hmem
          simp at hmem
        obtain ⟨hxr, hyr⟩ := updateKey_ranges_zero
          (t.getD (labels q.1 q.2) HashKey.zero) (input_image q.1 q.2) q.1 q.2 hz
        have hx1 : (updateKey (t.getD (labels q.1 q.2) HashKey.zero)
            (input_image q.1 q.2) q.1 q.2).x_range.1 = q.2 := by rw [hxr]
        have hx2 : (updateKey (t.getD (labels q.1 q.2) HashKey.zero)
            (input_image q.1 q.2) q.1 q.2).x_range.2 = q.2 := by rw [hxr]
        have hy1 : (updateKey (t.getD (labels q.1 q.2) HashKey.zero)
            (input_image q.1 q.2) q.1 q.2).y_range.1 = q.1 := by rw [hyr]
        have hy2 : (updateKey (t.getD (labels q.1 q.2) HashKey.zero)
            (input_image q.1 q.2) q.1 q.2).y_range.2 = q.1 := by rw [hyr]
        refine ⟨?_, ?_, ?_⟩
        · rw [updateKey_pixel_count, hfa, hfilt, hcount, hfilt]
          simp
        · intro p hp hlab
          rcases List.mem_append.mp hp with hps | hpq
          · exact absurd hlab (hnoseen p hps)
          · have hpq2 : p = q := by simpa using hpq
            subst hpq2
            simp only [inBox]
            rw [hx1, hx2, hy1, hy2]
            exact ⟨le_refl _, le_refl _, le_refl _, le_refl _⟩
        · intro _
          exact ⟨⟨q, by simp, rfl, hx1.symm⟩, ⟨q, by simp, rfl, hx2.symm⟩,
            ⟨q, by simp, rfl, hy1.symm⟩, ⟨q, by simp, rfl, hy2.symm⟩⟩
      · have hne2 : seen.filter (fun p => labels p.1 p.2 = labels q.1 q.2) ≠ [] := by
          intro h0
          rw [hcount, h0] at hz
          simp at hz
        obtain ⟨hxr, hyr⟩ := updateKey_ranges_pos
          (t.getD (labels q.1 q.2) HashKey.zero) (input_image q.1 q.2) q.1 q.2 hz
        have hx1 : (updateKey (t.getD (labels q.1 q.2) HashKey.zero)
            (input_image q.1 q.2) q.1 q.2).x_range.1 =
            if (t.getD (labels q.1 q.2) HashKey.zero).x_range.1 > q.2 then q.2
            else (t.getD (labels q.1 q.2) HashKey.zero).x_range.1 := by rw [hxr]
        have hx2 : (updateKey (t.getD (labels q.1 q.2) HashKey.zero)
            (input_image q.1 q.2) q.1 q.2).x_range.2 =
            if (t.getD (labels q.1 q.2) HashKey.zero).x_range.2 < q.2 then q.2
            else (t.getD (labels q.1 q.2) HashKey.zero).x_range.2 := by rw [hxr]
        have hy1 : (updateKey (t.getD (labels q.1 q.2) HashKey.zero)
            (input_image q.1 q.2) q.1 q.2).y_range.1 =
            if (t.getD (labels q.1 q.2) HashKey.zero).y_range.1 > q.1 then q.1
            else (t.getD (labels q.1 q.2) HashKey.zero).y_range.1 := by rw [hyr]
        have hy2 : (updateKey (t.getD (labels q.1 q.2) HashKey.zero)
            (input_image q.1 q.2) q.1 q.2).y_range.2 =
            if (t.getD (labels q.1 q.2) HashKey.zero).y_range.2 < q.1 then q.1
            else (t.getD (labels q.1 q.2) HashKey.zero).y_range.2 := by rw [hyr]
        obtain ⟨wx1, wx2, wy1, wy2⟩ := hattain hne2
        refine ⟨?_, ?_, ?_⟩
        · rw [updateKey_pixel_count, hfa, hcount]
          simp
        · intro p hp hlab
          rcases List.mem_append.mp hp with hps | hpq
          · obtain ⟨h1, h2, h3, h4⟩ := hcontain p hps hlab
            simp only [inBox]
            rw [hx1, hx2, hy1, hy2]
            refine ⟨?_, ?_, ?_, ?_⟩ <;> split <;> omega
          · have hpq2 : p = q := by simpa using hpq
            subst hpq2
            simp only [inBox]
            rw [hx1, hx2, hy1, hy2]
            refine ⟨?_, ?_, ?_, ?_⟩ <;> split <;> omega
        · intro _
          refine ⟨?_, ?_, ?_, ?_⟩
          · by_cases hgt : (t.getD (labels q.1 q.2) HashKey.zero).x_range.1 > q.2
            · refine ⟨q, by simp, rfl, ?_⟩
              rw [hx1, if_pos hgt]
            · obtain ⟨p, hps, hlab, hco⟩ := wx1
              refine ⟨p, by simp [hps], hlab, ?_⟩
              rw [hx1, if_neg hgt]
              exact hco
          · by_cases hlt2 : (t.getD (labels q.1 q.2) HashKey.zero).x_range.2 < q.2
            · refine ⟨q, by simp, rfl, ?_⟩
              rw [hx2, if_pos hlt2]
            · obtain ⟨p, hps, hlab, hco⟩ := wx2
              refine ⟨p, by simp [hps], hlab, ?_⟩
              rw [hx2, if_neg hlt2]
              exact hco
          · by_cases hgt : (t.getD (labels q.1 q.2) HashKey.zero).y_range.1 > q.1
            · refine ⟨q, by simp, rfl, ?_⟩
              rw [hy1, if_pos hgt]
            · obtain ⟨p, hps, hlab, hco⟩ := wy1
              refine ⟨p, by simp [hps], hlab, ?_⟩
              rw [hy1, if_neg hgt]
              exact hco
          · by_cases hlt2 : (t.getD (labels q.1 q.2) HashKey.zero).y_range.2 < q.1
            · refine ⟨q, by simp, rfl, ?_⟩
              rw [hy2, if_pos hlt2]
            · obtain ⟨p, hps, hlab, hco⟩ := wy2
              refine ⟨p, by simp [hps], hlab, ?_⟩
              rw [hy2, if_neg hlt2]
              exact hco
    · rw [getD_set_ne _ _ _ _ heq]
      have hfa : (seen ++ [q]).filter (fun p => labels p.1 p.2 = sp) =
          seen.filter (fun p => labels p.1 p.2 = sp) := by
        rw [List.filter_append]
        simp [heq]
      refine ⟨?_, ?_, ?_⟩
      · rw [hfa, hcount]
      · intro p hp hlab
        rcases List.mem_append.mp hp with hps | hpq
        · exact hcontain p hps hlab
        · have hpq2 : p = q := by simpa using hpq
          subst hpq2
          exact absurd hlab heq
      · intro hne0
        rw [hfa] at hne0
        obtain ⟨w1, w2, w3, w4⟩ := hattain hne0
        obtain ⟨p1, hp1, hl1, hc1⟩ := w1
        obtain ⟨p2, hp2, hl2, hc2⟩ := w2
        obtain ⟨p3, hp3, hl3, hc3⟩ := w3
        obtain ⟨p4, hp4, hl4, hc4⟩ := w4
        exact ⟨⟨p1, by simp [hp1], hl1, hc1⟩, ⟨p2, by simp [hp2], hl2, hc2⟩,
          ⟨p3, by simp [hp3], hl3, hc3⟩, ⟨p4, by simp [hp4], hl4, hc4⟩⟩

end SLICHashTable

namespace SLICHashTable

lemma accumPixels_inv (input_image : ℕ → ℕ → ℕ × ℕ × ℕ) (labels : ℕ → ℕ → ℕ) (k : ℕ) :
    ∀ (ps : List (ℕ × ℕ)) (seen : List (ℕ × ℕ)) (t : List HashKey),
      TableInv labels k seen t →
      (∀ p ∈ ps, labels p.1 p.2 < k) →
      ∃ t2, accumPixels input_image labels ps t = some t2 ∧
        TableInv labels k (seen ++ ps) t2 := by
  intro ps
  induction ps with
  | nil =>
    intro seen t hinv _
    exact ⟨t, rfl, by simpa using hinv⟩
  | cons q ps ih =>
    intro seen t hinv hin
    obtain ⟨t1, hq, hinv1⟩ :=
      hashPixel_inv input_image labels k seen t q hinv (hin q (by simp))
    obtain ⟨t2, hrest, hinv2⟩ :=
      ih (seen ++ [q]) t1 hinv1 (fun p hp => hin p (by simp [hp]))
    refine ⟨t2, ?_, ?_⟩
    · show (q :: ps).foldl _ (some t) = some t2
      rw [List.foldl_cons]
      simp only [Option.some_bind]
      rw [hq]
      exact hrest
    · have happ : seen ++ [q] ++ ps = seen ++ q :: ps := by simp
      rwa [happ] at hinv2

lemma Hash_inv (input_image : ℕ → ℕ → ℕ × ℕ × ℕ) (labels : ℕ → ℕ → ℕ)
    (rows cols k : ℕ) (hin : ∀ r, r < rows → ∀ c, c < cols → labels r c < k) :
    ∃ t, Hash input_image labels rows cols k = some t ∧
      TableInv labels k (pixelSeq rows cols) t := by
  have hps : ∀ p ∈ pixelSeq rows cols, labels p.1 p.2 < k := by
    intro p hp
    have hm := (pixelSeq_mem rows cols p).mp hp
    exact hin p.1 hm.1 p.2 hm.2
  obtain ⟨t, ht, hinv⟩ := accumPixels_inv input_image labels k (pixelSeq rows cols) []
    (List.replicate k HashKey.zero) (tableInv_init labels k) hps
  refine ⟨t, ?_, by simpa using hinv⟩
  rw [Hash_eq_accumPixels]
  exact ht

end SLICHashTable

/-- Claim C2: for every label map with all labels below `superpixel_count`,
the accumulation pass succeeds and the recorded pixel counts over all
superpixel ids sum to `rows * cols`, the total number of pixels. -/
theorem C2_pixel_counts_sum_to_total (input_image : ℕ → ℕ → ℕ × ℕ × ℕ)
    (labels : ℕ → ℕ → ℕ) (rows cols k : ℕ)
    (hin : ∀ r, r < rows → ∀ c, c < cols → labels r c < k) :
    ∃ t, SLICHashTable.Hash input_image labels rows cols k = some t ∧
      (t.map HashKey.pixel_count).sum = rows * cols := by
  obtain ⟨t, ht, _, hsum, _⟩ :=
    SLICHashTable.Hash_inv input_image labels rows cols k hin
  refine ⟨t, ht, ?_⟩
  rw [hsum, SLICHashTable.pixelSeq_length]

/-- Witness for C2 on a concrete 2x2 label map with two labels. -/
theorem C2_witness :
    ∃ t, SLICHashTable.Hash (fun _ _ => (0, 0, 0)) (fun r c => (r + c) % 2) 2 2 2 =
        some t ∧
      (t.map HashKey.pixel_count).sum = 2 * 2 :=
  C2_pixel_counts_sum_to_total (fun _ _ => (0, 0, 0)) (fun r c => (r + c) % 2) 2 2 2
    (by decide)

/-- Claim C4: for every label map with all labels below `superpixel_count`,
the accumulation pass succeeds and, for every id, the recorded bounding
ranges contain the coordinates of every pixel assigned to that id and are
minimal: each of the four bounds is attained by a pixel of that id whenever
the id has any pixel. -/
theorem C4_bounding_box_contains_and_minimal (input_image : ℕ → ℕ → ℕ × ℕ × ℕ)
    (labels : ℕ → ℕ → ℕ) (rows cols k : ℕ)
    (hin : ∀ r, r < rows → ∀ c, c < cols → labels r c < k) :
    ∃ t, SLICHashTable.Hash input_image labels rows cols k = some t ∧
      ∀ sp, sp < k →
        (∀ r, r < rows → ∀ c, c < cols → labels r c = sp →
          (t.getD sp HashKey.zero).x_range.1 ≤ c ∧
            c ≤ (t.getD sp HashKey.zero).x_range.2 ∧
            (t.getD sp HashKey.zero).y_range.1 ≤ r ∧
            r ≤ (t.getD sp HashKey.zero).y_range.2) ∧
        ((∃ r, r < rows ∧ ∃ c, c < cols ∧ labels r c = sp) →
          (∃ r, r < rows ∧ ∃ c, c < cols ∧ labels r c = sp ∧
            c = (t.getD sp HashKey.zero).x_range.1) ∧
          (∃ r, r < rows ∧ ∃ c, c < cols ∧ labels r c = sp ∧
            c = (t.getD sp HashKey.zero).x_range.2) ∧
          (∃ r, r < rows ∧ ∃ c, c < cols ∧ labels r c = sp ∧
            r = (t.getD sp HashKey.zero).y_range.1) ∧
          (∃ r, r < rows ∧ ∃ c, c < cols ∧ labels r c = sp ∧
            r = (t.getD sp HashKey.zero).y_range.2)) := by
  obtain ⟨t, ht, _, _, hids⟩ :=
    SLICHashTable.Hash_inv input_image labels rows cols k hin
  refine ⟨t, ht, ?_⟩
  intro sp hsp
  obtain ⟨hcount, hcontain, hattain⟩ := hids sp hsp
  constructor
  · intro r hr c hc hlab
    have hmem : ((r, c) : ℕ × ℕ) ∈ SLICHashTable.pixelSeq rows cols :=
      (SLICHashTable.pixelSeq_mem rows cols (r, c)).mpr ⟨hr, hc⟩
    exact hcontain (r, c) hmem hlab
  · rintro ⟨r0, hr0, c0, hc0, hlab0⟩
    have hmem0 : ((r0, c0) : ℕ × ℕ) ∈ SLICHashTable.pixelSeq rows cols :=
      (SLICHashTable.pixelSeq_mem rows cols (r0, c0)).mpr ⟨hr0, hc0⟩
    have hne : (SLICHashTable.pixelSeq rows cols).filter
        (fun p => labels p.1 p.2 = sp) ≠ [] := by
      apply List.ne_nil_of_mem (a := ((r0, c0) : ℕ × ℕ))
      simp [List.mem_filter, hmem0, hlab0]
    obtain ⟨w1, w2, w3, w4⟩ := hattain hne
    obtain ⟨p1, hp1, hl1, hc1⟩ := w1
    obtain ⟨p2, hp2, hl2, hc2⟩ := w2
    obtain ⟨p3, hp3, hl3, hc3⟩ := w3
    obtain ⟨p4, hp4, hl4, hc4⟩ := w4
    have hm1 := (SLICHashTable.pixelSeq_mem rows cols p1).mp hp1
    have hm2 := (SLICHashTable.pixelSeq_mem rows cols p2).mp hp2
    have hm3 := (SLICHashTable.pixelSeq_mem rows cols p3).mp hp3
    have hm4 := (SLICHashTable.pixelSeq_mem rows cols p4).mp hp4
    exact ⟨⟨p1.1, hm1.1, p1.2, hm1.2, hl1, hc1⟩, ⟨p2.1, hm2.1, p2.2, hm2.2, hl2, hc2⟩,
      ⟨p3.1, hm3.1, p3.2, hm3.2, hl3, hc3⟩, ⟨p4.1, hm4.1, p4.2, hm4.2, hl4, hc4⟩⟩

/-- Witness for C4 on a concrete 2x3 label map splitting rows into two ids. -/
theorem C4_witness :
    ∃ t, SLICHashTable.Hash (fun _ _ => (1, 2, 3))
        (fun r _ => if r = 0 then 0 else 1) 2 3 2 = some t ∧
      ∀ sp, sp < 2 →
        (∀ r, r < 2 → ∀ c, c < 3 → (if r = 0 then 0 else 1) = sp →
          (t.getD sp HashKey.zero).x_range.1 ≤ c ∧
            c ≤ (t.getD sp HashKey.zero).x_range.2 ∧
            (t.getD sp HashKey.zero).y_range.1 ≤ r ∧
            r ≤ (t.getD sp HashKey.zero).y_range.2) ∧
        ((∃ r, r < 2 ∧ ∃ c, c < 3 ∧ (if r = 0 then 0 else 1) = sp) →
          (∃ r, r < 2 ∧ ∃ c, c < 3 ∧ (if r = 0 then 0 else 1) = sp ∧
            c = (t.getD sp HashKey.zero).x_range.1) ∧
          (∃ r, r < 2 ∧ ∃ c, c < 3 ∧ (if r = 0 then 0 else 1) = sp ∧
            c = (t.getD sp HashKey.zero).x_range.2) ∧
          (∃ r, r < 2 ∧ ∃ c, c < 3 ∧ (if r = 0 then 0 else 1) = sp ∧
            r = (t.getD sp HashKey.zero).y_range.1) ∧
          (∃ r, r < 2 ∧ ∃ c, c < 3 ∧ (if r = 0 then 0 else 1) = sp ∧
            r = (t.getD sp HashKey.zero).y_range.2)) :=
  C4_bounding_box_contains_and_minimal (fun _ _ => (1, 2, 3))
    (fun r _ => if r = 0 then 0 else 1) 2 3 2 (by decide)

/-- Claim C3 evaluation: the accumulation pass of the source performs the
array access `superpixels[sp]` with no range check.  On a 1x1 label map whose
single label equals the declared `superpixel_count` of 1, the embedded code
aborts at an out-of-bounds access (`none`); it raises no `OutOfRangeLabel`
error — no such error value exists anywhere in the code. -/
theorem C3_out_of_range_label_is_unchecked :
    SLICHashTable.Hash (fun _ _ => (0, 0, 0)) (fun _ _ => 1) 1 1 1 = none := by
  rfl

/-- Whether a candidate's feature vector lies strictly below the merge
threshold in distance from unit `u` (a failed length assertion counts as not
mergeable). -/
def belowThreshold (threshold : ℚ) (u v : SuperDuperPixel) : Bool :=
  match u.distance_from v.average_or_histogram with
  | some d => decide (d < threshold)
  | none => false

/-- Modelled from the spec: one pass of the DuperizationEngine merge loop.
The engine implementation (`duperizeWithAverage` in sdp_slic.hpp) is missing
from the repository; only its caller in the SD-SLIC demo appears.  Spec 4.4:
pick a unit, merge into it (via `operator+=`) every remaining candidate
whose feature-vector distance is below the threshold, keep the rest, and
continue with the units not yet visited. -/
def duperizePass (threshold : ℚ) : List SuperDuperPixel → List SuperDuperPixel
  | [] => []
  | u :: rest =>
    let near := rest.filter (belowThreshold threshold u)
    let far := rest.filter (fun v => !(belowThreshold threshold u v))
    let merged := near.foldl (fun acc v => (acc.plusEq v).getD acc) u
    merged :: duperizePass threshold far
termination_by units => units.length
decreasing_by
  simp only [List.length_cons]
  have hf := List.length_filter_le (fun v => !(belowThreshold threshold u v)) rest
  omega

/-- Modelled from the spec: the DuperizationEngine outer loop — repeat merge
passes until a full pass produces no merges (fixed point), bounded by the
initial unit count as the iteration cap (each merge strictly reduces the
number of live units). -/
def duperizeLoop (threshold : ℚ) : ℕ → List SuperDuperPixel → List SuperDuperPixel
  | 0, units => units
  | fuel + 1, units =>
    let next := duperizePass threshold units
    if next.length = units.length then next
    else duperizeLoop threshold fuel next

/-- Modelled from the spec: `duperizeWithAverage` — create one MergeUnit per
original superpixel record (spec 4.4: one unit per original superpixel, each
wrapping exactly one id) and run the merge loop. -/
def duperizeWithAverage (recs : List SPRecord) (threshold : ℚ) : List SuperDuperPixel :=
  duperizeLoop threshold recs.length (recs.map SuperDuperPixel.make)

lemma distance_from_nonneg (u : SuperDuperPixel) (v : List ℚ) (d : ℚ)
    (h : u.distance_from v = some d) : 0 ≤ d := by
  unfold SuperDuperPixel.distance_from at h
  by_cases hlen : u.average_or_histogram.length = v.length
  · rw [if_pos hlen, Option.some.injEq] at h
    rw [foldl_add_eq_sum, zero_add] at h
    rw [h.symm] at *
    apply List.sum_nonneg
    intro x hx
    obtain ⟨i, _, rfl⟩ := List.mem_map.mp hx
    exact abs_nonneg _
  · rw [if_neg hlen] at h
    exact absurd h (by simp)

lemma belowThreshold_eq_false (threshold : ℚ) (u v : SuperDuperPixel)
    (hth : threshold ≤ 0) : belowThreshold threshold u v = false := by
  unfold belowThreshold
  cases hd : u.distance_from v.average_or_histogram with
  | none => rfl
  | some d =>
    simp only [decide_eq_false_iff_not, not_lt]
    exact le_trans hth (distance_from_nonneg u v.average_or_histogram d hd)

lemma duperizePass_id (threshold : ℚ) (hth : threshold ≤ 0) :
    ∀ units : List SuperDuperPixel, duperizePass threshold units = units := by
  intro units
  induction units with
  | nil => rw [duperizePass]
  | cons u rest ih =>
    rw [duperizePass]
    have hnear : rest.filter (belowThreshold threshold u) = [] := by
      apply List.filter_eq_nil_iff.mpr
      intro v _
      simp [belowThreshold_eq_false threshold u v hth]
    have hfar : rest.filter (fun v => !(belowThreshold threshold u v)) = rest := by
      apply List.filter_eq_self.mpr
      intro v _
      simp [belowThreshold_eq_false threshold u v hth]
    rw [hnear, hfar, ih]
    rfl

lemma duperizeLoop_fixed (threshold : ℚ) (units : List SuperDuperPixel)
    (h : duperizePass threshold units = units) :
    ∀ fuel, duperizeLoop threshold fuel units = units := by
  intro fuel
  cases fuel with
  | zero => rfl
  | succ n =>
    rw [duperizeLoop]
    simp [h]

/-- Claim C6 (engine modelled from the spec): with merge threshold ≤ 0 the
engine performs no merges — its output is exactly one singleton MergeUnit
per input superpixel record: it equals the initial unit list, has the same
length as the input, and every output unit wraps exactly one original id. -/
theorem C6_nonpositive_threshold_no_merges (recs : List SPRecord) (threshold : ℚ)
    (hth : threshold ≤ 0) :
    duperizeWithAverage recs threshold = recs.map SuperDuperPixel.make ∧
    (duperizeWithAverage recs threshold).length = recs.length ∧
    ∀ u ∈ duperizeWithAverage recs threshold, u.superpixels.length = 1 := by
  have hmain : duperizeWithAverage recs threshold = recs.map SuperDuperPixel.make := by
    unfold duperizeWithAverage
    exact duperizeLoop_fixed threshold (recs.map SuperDuperPixel.make)
      (duperizePass_id threshold hth (recs.map SuperDuperPixel.make)) recs.length
  refine ⟨hmain, by rw [hmain, List.length_map], ?_⟩
  intro u hu
  rw [hmain] at hu
  obtain ⟨r, _, rfl⟩ := List.mem_map.mp hu
  rfl

/-- Witness for C6 at a concrete two-record input and threshold 0. -/
theorem C6_witness :
    duperizeWithAverage [⟨0, [1], 2⟩, ⟨1, [5], 3⟩] 0 =
        [⟨0, [1], 2⟩, ⟨1, [5], 3⟩].map SuperDuperPixel.make ∧
      (duperizeWithAverage [⟨0, [1], 2⟩, ⟨1, [5], 3⟩] 0).length =
        ([⟨0, [1], 2⟩, ⟨1, [5], 3⟩] : List SPRecord).length ∧
      ∀ u ∈ duperizeWithAverage [⟨0, [1], 2⟩, ⟨1, [5], 3⟩] 0,
        u.superpixels.length = 1 :=
  C6_nonpositive_threshold_no_merges [⟨0, [1], 2⟩, ⟨1, [5], 3⟩] 0 (le_refl 0)
